import Mathlib

/-!
Verification of the thread/search model logic of the dodo email client
(`dodo/thread.py`, `dodo/search.py`, `dodo/util.py`).

The JSON message dictionaries produced by `notmuch show` are modelled by the
structure `Msg` below; the nested thread dump (a list of `[message, replies]`
pairs, where `replies` is again such a list) is modelled by the inductive
`MsgTree` (one constructor `node msg children`), a thread being a
`List MsgTree` (the top-level forest).  Message sets (`ThreadModel.matches`,
Python `set` objects of message-id strings) are modelled by `List String` up
to membership.  Tree-walking functions from the source are transcribed as
structurally recursive functions over the forest (`List MsgTree` /
`List ThreadItem`): a loop over `self.roots`, or over `node.children`,
becomes the list case of the recursion.
-/

/-- A JSON message object as produced by `notmuch show --format=json`:
the fields the modelled code reads unconditionally (`m['id']`,
`m['timestamp']`, `m['tags']`). -/
structure Msg where
  id : String
  timestamp : Int
  tags : List String
deriving DecidableEq, Repr

/-- The nested thread data: a JSON entry `[message, children]`. A full
thread is a `List MsgTree` (the top-level forest `raw_thread_data`). -/
inductive MsgTree where
  | node (msg : Msg) (children : List MsgTree)

/-- The message of a tree node. -/
def MsgTree.msg : MsgTree → Msg
  | .node m _ => m

/-- The child list of a tree node. -/
def MsgTree.children : MsgTree → List MsgTree
  | .node _ cs => cs

/-- `dodo/thread.py: flatten`, restricted to nested thread data: yields the
messages of the forest in depth-first (preorder) order. -/
def flatten_forest : List MsgTree → List Msg
  | [] => []
  | .node m cs :: ts => m :: (flatten_forest cs ++ flatten_forest ts)

/-- `dodo/thread.py: flat_thread`: the thread as a flattened list of
messages, sorted by date (`thread.sort(key=lambda m: m['timestamp'])`;
Python `list.sort` is a stable mergesort). -/
def flat_thread (d : List MsgTree) : List Msg :=
  (flatten_forest d).mergeSort (fun a b => decide (a.timestamp ≤ b.timestamp))

/-- `dodo/thread.py: ThreadItem`: a node of the view model tree.  The Python
object also stores a `parent` pointer, which is `None` for a root and,
for each element of `children`, the enclosing item itself; in this pure
rendering the parent link is exactly the enclosing position in the tree,
so only `msg` and `children` are stored. -/
inductive ThreadItem where
  | mk (msg : Msg) (children : List ThreadItem)

/-- The message of a `ThreadItem`. -/
def ThreadItem.msg : ThreadItem → Msg
  | .mk m _ => m

/-- The children of a `ThreadItem`. -/
def ThreadItem.children : ThreadItem → List ThreadItem
  | .mk _ cs => cs

/-- `ThreadItem.__init__` mapped over a list of sibling subtrees:
`ThreadItem(raw_data, parent)` stores `raw_data[0]` as `msg` and builds
`children = [ThreadItem(elt, self) for elt in raw_data[1]]`. -/
def thread_items_of : List MsgTree → List ThreadItem
  | [] => []
  | .node m cs :: ts => .mk m (thread_items_of cs) :: thread_items_of ts

/-- The raw nested data recovered from a list of `ThreadItem`s (msg plus
children, recursively); inverse of `thread_items_of`. -/
def raw_of_items : List ThreadItem → List MsgTree
  | [] => []
  | .mk m cs :: ts => .node m (raw_of_items cs) :: raw_of_items ts

/-- `dodo/thread.py: make_thread_trees.has_multiple_children`:
`while forest: if len(forest) > 1: return True; forest = forest[0][1]`
(falls off the end, i.e. returns a falsy value, when the chain of unique
first children ends). -/
def has_multiple_children : List MsgTree → Bool
  | [] => false
  | [.node _ cs] => has_multiple_children cs
  | _ :: _ :: _ => true

/-- `dodo/thread.py: make_thread_trees`: the roots for a given thread;
if the thread is linear, all messages become (childless) roots. -/
def make_thread_trees (raw_thread_data : List MsgTree) : List ThreadItem :=
  if has_multiple_children raw_thread_data then
    thread_items_of raw_thread_data
  else
    (flatten_forest raw_thread_data).map (fun m => .mk m [])

/-- All sibling groups of a forest: the top-level list together with the
child list of every node.  "Some node has more than one sibling or child"
is "some sibling group has more than one element". -/
def sibling_groups : List MsgTree → List (List MsgTree)
  | [] => []
  | .node _ cs :: ts => cs :: (sibling_groups cs ++ sibling_groups ts)

/-- A linear thread: every level contains exactly one node. -/
def is_linear : List MsgTree → Bool
  | [] => false
  | [.node _ []] => true
  | [.node _ (c :: cs)] => is_linear (c :: cs)
  | _ :: _ :: _ => false

theorem has_multiple_children_false_sibling_groups {f : List MsgTree}
    (h : has_multiple_children f = false) :
    ∀ g ∈ f :: sibling_groups f, g.length ≤ 1 := by
  induction f using has_multiple_children.induct with
  | case1 =>
      intro g hg
      simp only [sibling_groups, List.mem_cons, List.not_mem_nil, or_false] at hg
      simp [hg]
  | case2 m cs ih =>
      rw [has_multiple_children] at h
      intro g hg
      simp only [sibling_groups, List.append_nil, List.mem_cons] at hg
      rcases hg with hg | hg | hg
      · simp [hg]
      · rw [hg]; exact ih h cs (List.mem_cons_self _ _)
      · exact ih h g (List.mem_cons_of_mem _ hg)
  | case3 t1 t2 ts =>
      rw [has_multiple_children] at h
      exact absurd h (by simp)

theorem is_linear_hmc {f : List MsgTree} (h : is_linear f = true) :
    has_multiple_children f = false := by
  induction f using is_linear.induct with
  | case1 => simp [has_multiple_children]
  | case2 m => simp [has_multiple_children]
  | case3 m c cs ih =>
      rw [is_linear] at h
      rw [has_multiple_children]
      exact ih h
  | case4 t1 t2 ts =>
      rw [is_linear] at h
      exact absurd h (by simp)

theorem raw_of_thread_items (f : List MsgTree) :
    raw_of_items (thread_items_of f) = f := by
  induction f using thread_items_of.induct with
  | case1 => simp [thread_items_of, raw_of_items]
  | case2 m cs ts ih1 ih2 => simp [thread_items_of, raw_of_items, ih1, ih2]

/-- C1: on a forest some sibling group of which (the top level or some
node's child list) has more than one element — in particular whenever some
node has more than one sibling or more than one child — `make_thread_trees`
returns one root `ThreadItem` per top-level entry, built by
`ThreadItem.__init__` so that children (and hence the implicit parent
links) mirror the JSON nesting exactly (`raw_of_items` recovers the input);
on a linear thread (every level exactly one node) it returns one childless
root per message, in depth-first flatten order. -/
theorem make_thread_trees_correct (f : List MsgTree) :
    ((∃ g ∈ f :: sibling_groups f, 1 < g.length) →
      make_thread_trees f = thread_items_of f ∧
      raw_of_items (make_thread_trees f) = f) ∧
    (is_linear f = true →
      make_thread_trees f = (flatten_forest f).map (fun m => .mk m [])) := by
  constructor
  · rintro ⟨g, hg, hlen⟩
    have hmc : has_multiple_children f = true := by
      by_contra hfalse
      rw [Bool.not_eq_true] at hfalse
      have := has_multiple_children_false_sibling_groups hfalse g hg
      omega
    have hEq : make_thread_trees f = thread_items_of f := by
      rw [make_thread_trees, if_pos hmc]
    exact ⟨hEq, by rw [hEq, raw_of_thread_items]⟩
  · intro hlin
    rw [make_thread_trees, if_neg (by simp [is_linear_hmc hlin])]

/-- Witness for C1: a branchy forest (root with two children) maps through
`ThreadItem.__init__` per top-level entry; a two-message linear chain
flattens to two childless roots. -/
theorem make_thread_trees_correct_witness :
    (make_thread_trees
        [.node ⟨"a", 0, []⟩ [.node ⟨"b", 1, []⟩ [], .node ⟨"c", 2, []⟩ []]] =
      thread_items_of
        [.node ⟨"a", 0, []⟩ [.node ⟨"b", 1, []⟩ [], .node ⟨"c", 2, []⟩ []]]) ∧
    (make_thread_trees [.node ⟨"a", 0, []⟩ [.node ⟨"b", 1, []⟩ []]] =
      [.mk ⟨"a", 0, []⟩ [], .mk ⟨"b", 1, []⟩ []]) := by
  constructor
  · exact ((make_thread_trees_correct
      [.node ⟨"a", 0, []⟩ [.node ⟨"b", 1, []⟩ [], .node ⟨"c", 2, []⟩ []]]).1
      ⟨[.node ⟨"b", 1, []⟩ [], .node ⟨"c", 2, []⟩ []], by
        simp [sibling_groups], by simp⟩).1
  · have := (make_thread_trees_correct
      [.node ⟨"a", 0, []⟩ [.node ⟨"b", 1, []⟩ []]]).2 (by simp [is_linear])
    rw [this]
    simp [flatten_forest]

/-- The two display modes of `ThreadModel` (`Literal['conversation','thread']`). -/
inductive ListMode where
  | conversation
  | thread
deriving DecidableEq, Repr

/-- Messages stored in a list of view-model trees, in the depth-first
(preorder) order of `ThreadModel.iterate_indices`. -/
def flatten_items : List ThreadItem → List Msg
  | [] => []
  | .mk m cs :: ts => m :: (flatten_items cs ++ flatten_items ts)

/-- `dodo/thread.py: ThreadModel.compute_roots`: in conversation mode one
childless, parentless `ThreadItem([msg, []], None)` per message of
`flat_thread`; in thread mode `make_thread_trees`. -/
def compute_roots (mode : ListMode) (raw_data : List MsgTree) : List ThreadItem :=
  match mode with
  | .conversation => (flat_thread raw_data).map (fun m => .mk m [])
  | .thread => make_thread_trees raw_data

/-- The model-level Qt notification a `ThreadModel` mutation performs:
a full `beginResetModel`/`endResetModel` pair (which invalidates existing
`QModelIndex` objects) or a `dataChanged` emission (which keeps them valid). -/
inductive ModelSignal where
  | resetModel
  | dataChanged
deriving DecidableEq, Repr

/-- The mutable state of a `ThreadModel`: current mode, the raw nested
thread data, the computed view roots and the matching message ids
(`self.matches`; named `matchIds` here because `matches` is a reserved
word in Lean). -/
structure TMState where
  mode : ListMode
  raw_data : List MsgTree
  roots : List ThreadItem
  matchIds : List String

/-- `dodo/thread.py: ThreadModel.toggle_mode`: flip `_mode`, recompute
`self.roots = self.compute_roots(self.raw_data)`, all inside a model
reset. -/
def toggle_mode (st : TMState) : TMState × ModelSignal :=
  let m := match st.mode with
    | ListMode.conversation => ListMode.thread
    | ListMode.thread => ListMode.conversation
  ({ st with mode := m, roots := compute_roots m st.raw_data },
   ModelSignal.resetModel)

theorem flatten_items_map_leaf (l : List Msg) :
    flatten_items (l.map (fun m => .mk m [])) = l := by
  induction l with
  | nil => simp [flatten_items]
  | cons m ms ih => simp [flatten_items, ih]

theorem map_msg_map_leaf (l : List Msg) :
    (l.map (fun m => ThreadItem.mk m [])).map ThreadItem.msg = l := by
  induction l with
  | nil => simp
  | cons m ms ih => simp [ThreadItem.msg, ih]

theorem flatten_items_thread_items (f : List MsgTree) :
    flatten_items (thread_items_of f) = flatten_forest f := by
  induction f using thread_items_of.induct with
  | case1 => simp [thread_items_of, flatten_items, flatten_forest]
  | case2 m cs ts ih1 ih2 =>
      simp [thread_items_of, flatten_items, flatten_forest, ih1, ih2]

theorem flat_thread_perm (d : List MsgTree) :
    (flat_thread d).Perm (flatten_forest d) :=
  List.mergeSort_perm (flatten_forest d) _

theorem compute_roots_perm (mode : ListMode) (d : List MsgTree) :
    (flatten_items (compute_roots mode d)).Perm (flatten_forest d) := by
  cases mode with
  | conversation =>
      rw [compute_roots, flatten_items_map_leaf]
      exact flat_thread_perm d
  | thread =>
      rw [compute_roots, make_thread_trees]
      by_cases h : has_multiple_children d = true
      · rw [if_pos h, flatten_items_thread_items]
      · rw [if_neg h, flatten_items_map_leaf]

/-- C2: in conversation mode `compute_roots` returns one childless (and,
being a root, parentless) `ThreadItem` per message, whose message sequence
is a permutation of the depth-first flattening of the nested thread data
and is sorted by non-decreasing `timestamp`. -/
theorem compute_roots_conversation_correct (d : List MsgTree) :
    (∀ r ∈ compute_roots ListMode.conversation d, r.children = []) ∧
    ((compute_roots ListMode.conversation d).map ThreadItem.msg).Perm
      (flatten_forest d) ∧
    List.Pairwise (fun a b : Msg => a.timestamp ≤ b.timestamp)
      ((compute_roots ListMode.conversation d).map ThreadItem.msg) := by
  refine ⟨?_, ?_, ?_⟩
  · intro r hr
    rw [compute_roots] at hr
    obtain ⟨m, _, rfl⟩ := List.mem_map.mp hr
    rfl
  · rw [compute_roots, map_msg_map_leaf]
    exact flat_thread_perm d
  · rw [compute_roots, map_msg_map_leaf, flat_thread]
    have hs := @List.sorted_mergeSort Msg
      (fun a b => decide (a.timestamp ≤ b.timestamp))
      (fun a b c hab hbc => by
        simp only [decide_eq_true_eq] at *
        exact le_trans hab hbc)
      (fun a b => by
        simp only [Bool.or_eq_true, decide_eq_true_eq]
        exact Int.le_total _ _)
      (flatten_forest d)
    exact hs.imp (fun h => of_decide_eq_true h)

/-- C5: `toggle_mode` flips the mode (two toggles restore it), and the
messages reachable from the recomputed roots are, as a multiset, exactly
the messages of `raw_data`: both view modes present the same messages. -/
theorem toggle_mode_correct (st : TMState) :
    (toggle_mode st).1.mode ≠ st.mode ∧
    (toggle_mode (toggle_mode st).1).1.mode = st.mode ∧
    (flatten_items (toggle_mode st).1.roots).Perm (flatten_forest st.raw_data) := by
  refine ⟨?_, ?_, ?_⟩
  · cases h : st.mode <;> simp [toggle_mode, h]
  · cases h : st.mode <;> simp [toggle_mode, h]
  · cases h : st.mode <;> simpa [toggle_mode, h] using compute_roots_perm _ st.raw_data

/-- `dodo/thread.py: ThreadModel.default_collapsed.prune_irrelevant_branches`,
run over a forest (the head node is one call of the Python function, the
tail the remaining iterations of the enclosing loop): returns the
"has relevant (matching) node" flag together with the ids added to
`irrelevant_branches`.  A node whose id is in `matches` returns `True`
immediately, before its children are visited. -/
def prune_irrelevant (M : List String) : List ThreadItem → Bool × List String
  | [] => (false, [])
  | .mk m cs :: ts =>
    let head : Bool × List String :=
      if m.id ∈ M then (true, [])
      else
        let rec_children := prune_irrelevant M cs
        if rec_children.1 then (true, rec_children.2)
        else (false, m.id :: rec_children.2)
    let rest := prune_irrelevant M ts
    (head.1 || rest.1, head.2 ++ rest.2)

/-- `dodo/thread.py: ThreadModel.default_collapsed`: the set (here: list up
to membership) of ids collected by `prune_irrelevant_branches` over all
roots. -/
def default_collapsed (M : List String) (roots : List ThreadItem) : List String :=
  (prune_irrelevant M roots).2

/-- Whether some message of the forest (some node or descendant) has its id
in `M`. -/
def subtree_has_match (M : List String) : List ThreadItem → Bool
  | [] => false
  | .mk m cs :: ts =>
    decide (m.id ∈ M) || subtree_has_match M cs || subtree_has_match M ts

/-- Every node of the forest, in depth-first order. -/
def all_nodes : List ThreadItem → List ThreadItem
  | [] => []
  | .mk m cs :: ts => .mk m cs :: (all_nodes cs ++ all_nodes ts)

/-- The set described by claim C3: ids of the messages whose subtree (the
message together with its descendants) contains no matching message. -/
def matchless_subtree_ids (M : List String) (roots : List ThreadItem) : List String :=
  ((all_nodes roots).filter (fun t => ! subtree_has_match M [t])).map
    (fun t => t.msg.id)

/-- Every node of the forest paired with a flag telling whether all of its
strict ancestors (within the forest) avoid `M`; `clear` is that flag for
the top level. -/
def nodes_clear (M : List String) (clear : Bool) : List ThreadItem → List (ThreadItem × Bool)
  | [] => []
  | .mk m cs :: ts =>
    (.mk m cs, clear) ::
      (nodes_clear M (clear && ! decide (m.id ∈ M)) cs ++ nodes_clear M clear ts)

/-- The corrected description of `default_collapsed`: ids of the messages
whose subtree contains no matching message and none of whose ancestors is a
matching message (descendants of a matching message are never visited). -/
def collapsed_spec_ids (M : List String) (roots : List ThreadItem) : List String :=
  ((nodes_clear M true roots).filter
      (fun p => p.2 && ! subtree_has_match M [p.1])).map
    (fun p => p.1.msg.id)

theorem prune_irrelevant_fst (M : List String) (f : List ThreadItem) :
    (prune_irrelevant M f).1 = subtree_has_match M f := by
  induction f using prune_irrelevant.induct M with
  | case1 => simp [prune_irrelevant, subtree_has_match]
  | case2 m cs ts ih1 ih2 =>
      rw [prune_irrelevant, subtree_has_match]
      by_cases hm : m.id ∈ M
      · simp [hm, ih2]
      · simp only [if_neg hm]
        by_cases hc : (prune_irrelevant M cs).1 = true
        · simp [hc, ← ih1, hm, ih2]
        · simp only [Bool.not_eq_true] at hc
          simp [hc, ← ih1, hm, ih2]

theorem nodes_clear_false_filter (M : List String) (clear : Bool)
    (f : List ThreadItem) (hclear : clear = false) :
    ((nodes_clear M clear f).filter
        (fun p => p.2 && ! subtree_has_match M [p.1])).map
      (fun p => p.1.msg.id) = [] := by
  revert hclear
  induction clear, f using nodes_clear.induct M with
  | case1 clear => intro hclear; simp [nodes_clear]
  | case2 clear m cs ts ih1 ih2 =>
      intro hclear
      subst hclear
      rw [nodes_clear]
      simp only [Bool.false_and] at *
      simp [List.filter_append, List.map_append, ih1, ih2]

theorem prune_irrelevant_snd (M : List String) (f : List ThreadItem) :
    (prune_irrelevant M f).2 =
      ((nodes_clear M true f).filter
          (fun p => p.2 && ! subtree_has_match M [p.1])).map
        (fun p => p.1.msg.id) := by
  induction f using prune_irrelevant.induct M with
  | case1 => simp [prune_irrelevant, nodes_clear]
  | case2 m cs ts ih1 ih2 =>
      rw [prune_irrelevant, nodes_clear]
      simp only [List.filter_cons, List.filter_append, List.map_append]
      by_cases hm : m.id ∈ M
      · have hmatch : subtree_has_match M [ThreadItem.mk m cs] = true := by
          simp [subtree_has_match, hm]
        simp [hm, hmatch, nodes_clear_false_filter, ih2]
      · have hflag : (true && ! decide (m.id ∈ M)) = true := by simp [hm]
        rw [hflag]
        by_cases hc : (prune_irrelevant M cs).1 = true
        · have hmatch : subtree_has_match M [ThreadItem.mk m cs] = true := by
            have := prune_irrelevant_fst M cs
            simp [subtree_has_match, hm, ← this, hc]
          simp [hm, hc, hmatch, ih1, ih2]
        · simp only [Bool.not_eq_true] at hc
          have hmatch : subtree_has_match M [ThreadItem.mk m cs] = false := by
            have := prune_irrelevant_fst M cs
            simp [subtree_has_match, hm, ← this, hc]
          simp [hm, hc, hmatch, ih1, ih2, ThreadItem.msg]

/-- Counterexample to C3 as stated: with a matching root `a` over a child
`b` whose subtree contains no match, the id `b` lies in the set the claim
describes but `default_collapsed` never visits it (the recursion returns
at `a` before descending), so `b` is not collapsed. -/
theorem default_collapsed_claim_counterexample :
    "b" ∈ matchless_subtree_ids ["a"]
        [.mk ⟨"a", 0, []⟩ [.mk ⟨"b", 1, []⟩ []]] ∧
    "b" ∉ default_collapsed ["a"]
        [.mk ⟨"a", 0, []⟩ [.mk ⟨"b", 1, []⟩ []]] := by
  constructor
  · simp [matchless_subtree_ids, all_nodes, subtree_has_match, ThreadItem.msg]
  · simp [default_collapsed, prune_irrelevant, subtree_has_match]

/-- C3 (amended): `default_collapsed` returns exactly the ids of the
messages whose subtree contains no matching message **and** none of whose
ancestors is a matching message; branches hidden below a matching message
are not reported, because the pruning recursion returns as soon as it
meets a match. -/
theorem default_collapsed_amended (M : List String) (roots : List ThreadItem) :
    default_collapsed M roots = collapsed_spec_ids M roots :=
  prune_irrelevant_snd M roots

/-- The pure tree shape of a view-model forest: children structure with
messages erased.  Two forests with the same shape have the same rows and
parent/child links at every position, so `QModelIndex` objects built for
one remain valid for the other. -/
inductive Shape where
  | node (children : List Shape)

/-- Shape of a forest. -/
def shape_of : List ThreadItem → List Shape
  | [] => []
  | .mk _ cs :: ts => .node (shape_of cs) :: shape_of ts

/-- `ThreadModel.find` combined with the in-place update of
`refresh_message`: locate the first item in `iterate_indices` order
(depth-first preorder) whose message id is `msgId` and replace that
message dict contents (`old_msg.clear(); old_msg.update(msg)`) by
`newMsg`, leaving the `ThreadItem` tree untouched; `none` when no such
message exists (the `assert idx.isValid()` failure). -/
def replace_first (msgId : String) (newMsg : Msg) : List ThreadItem → Option (List ThreadItem)
  | [] => none
  | .mk m cs :: ts =>
    if m.id = msgId then some (.mk newMsg cs :: ts)
    else
      match replace_first msgId newMsg cs with
      | some cs2 => some (.mk m cs2 :: ts)
      | none =>
        match replace_first msgId newMsg ts with
        | some ts2 => some (.mk m cs :: ts2)
        | none => none

/-- `dodo/thread.py: ThreadModel.refresh`: refetch everything, recompute
the roots and the matches, inside a full model reset. -/
def model_refresh (st : TMState) (newData : List MsgTree)
    (newMatches : List String) : TMState × ModelSignal :=
  ({ st with raw_data := newData,
             roots := compute_roots st.mode newData,
             matchIds := newMatches },
   ModelSignal.resetModel)

/-- `dodo/thread.py: ThreadModel.refresh_message`: update the one message
in place, refresh the matches, and emit `dataChanged` (no model reset).
`newMsg` is the message fetched by `notmuch show id:msg_id`, `newMatches`
the refreshed matching ids.  In the Python code the replaced dict object is
shared with `raw_data`, which therefore sees the same new contents; the
nesting of `raw_data` is not touched either way. -/
def refresh_message (st : TMState) (msgId : String) (newMsg : Msg)
    (newMatches : List String) : Option (TMState × ModelSignal) :=
  match replace_first msgId newMsg st.roots with
  | some roots2 =>
      some ({ st with roots := roots2, matchIds := newMatches },
            ModelSignal.dataChanged)
  | none => none

theorem replace_first_none_iff (msgId : String) (newMsg : Msg)
    (f : List ThreadItem) :
    replace_first msgId newMsg f = none ↔
      ∀ m ∈ flatten_items f, ¬ m.id = msgId := by
  induction f using replace_first.induct msgId newMsg with
  | case1 => simp [replace_first, flatten_items]
  | case2 m cs ts hm =>
      rw [replace_first, if_pos hm]
      constructor
      · intro h; exact absurd h (by simp)
      · intro h
        exact absurd hm (h m (by simp [flatten_items]))
  | case3 m cs ts hm cs2 hcs ih1 =>
      rw [replace_first]
      simp only [if_neg hm, hcs]
      constructor
      · intro h; exact absurd h (by simp)
      · intro h
        have hnone : replace_first msgId newMsg cs = none := by
          rw [ih1]; intro x hx
          exact h x (by simp [flatten_items, hx])
        rw [hnone] at hcs; exact absurd hcs (by simp)
  | case4 m cs ts hm hcs ts2 hts ih1 ih2 =>
      rw [replace_first]
      simp only [if_neg hm, hcs, hts]
      constructor
      · intro h; exact absurd h (by simp)
      · intro h
        have hnone : replace_first msgId newMsg ts = none := by
          rw [ih2]; intro x hx
          exact h x (by simp [flatten_items, hx])
        rw [hnone] at hts; exact absurd hts (by simp)
  | case5 m cs ts hm hcs hts ih1 ih2 =>
      rw [replace_first]
      simp only [if_neg hm, hcs, hts]
      constructor
      · intro _ x hx
        simp only [flatten_items, List.mem_cons, List.mem_append] at hx
        rcases hx with rfl | hx | hx
        · exact hm
        · exact (ih1.mp hcs) x hx
        · exact (ih2.mp hts) x hx
      · intro _; trivial

theorem replace_first_some (msgId : String) (newMsg : Msg) :
    ∀ (f f2 : List ThreadItem), replace_first msgId newMsg f = some f2 →
      shape_of f2 = shape_of f ∧
      (flatten_items f).findIdx (fun m => decide (m.id = msgId)) <
        (flatten_items f).length ∧
      flatten_items f2 =
        (flatten_items f).set
          ((flatten_items f).findIdx (fun m => decide (m.id = msgId))) newMsg := by
  intro f
  induction f using replace_first.induct msgId newMsg with
  | case1 => intro f2 h; simp [replace_first] at h
  | case2 m cs ts hm =>
      intro f2 h
      rw [replace_first, if_pos hm] at h
      obtain rfl := Option.some.inj h
      refine ⟨by simp [shape_of], ?_, ?_⟩
      · simp [flatten_items, List.findIdx_cons, hm]
      · simp [flatten_items, List.findIdx_cons, hm]
  | case3 m cs ts hm cs2 hcs ih1 =>
      intro f2 h
      rw [replace_first] at h
      simp only [if_neg hm, hcs] at h
      obtain rfl := Option.some.inj h
      obtain ⟨hsh, hlt, hset⟩ := ih1 cs2 hcs
      have hpm : (fun m : Msg => decide (m.id = msgId)) m = false := by
        simp [hm]
      refine ⟨by simp [shape_of, hsh], ?_, ?_⟩
      · simp only [flatten_items, List.findIdx_cons, hpm, cond_false,
          List.findIdx_append, List.length_cons, List.length_append]
        rw [if_pos hlt]
        omega
      · simp only [flatten_items, List.findIdx_cons, hpm, cond_false,
          List.findIdx_append]
        rw [if_pos hlt]
        simp only [List.set_cons_succ, List.set_append]
        rw [if_pos hlt, hset]
  | case4 m cs ts hm hcs ts2 hts ih1 ih2 =>
      intro f2 h
      rw [replace_first] at h
      simp only [if_neg hm, hcs, hts] at h
      obtain rfl := Option.some.inj h
      obtain ⟨hsh, hlt, hset⟩ := ih2 ts2 hts
      have hpm : (fun m : Msg => decide (m.id = msgId)) m = false := by
        simp [hm]
      have hnone : (flatten_items cs).findIdx
          (fun m => decide (m.id = msgId)) = (flatten_items cs).length := by
        rw [List.findIdx_eq_length]
        intro x hx
        simp [(replace_first_none_iff msgId newMsg cs).mp hcs x hx]
      refine ⟨by simp [shape_of, hsh], ?_, ?_⟩
      · simp only [flatten_items, List.findIdx_cons, hpm, cond_false,
          List.findIdx_append, List.length_cons, List.length_append, hnone,
          lt_irrefl, if_false]
        omega
      · simp only [flatten_items, List.findIdx_cons, hpm, cond_false,
          List.findIdx_append, hnone, lt_irrefl, if_false]
        rw [hset, List.set_cons_succ, List.set_append, if_neg (by omega)]
        simp [Nat.add_sub_cancel]
  | case5 m cs ts hm hcs hts ih1 ih2 =>
      intro f2 h
      rw [replace_first] at h
      simp only [if_neg hm, hcs, hts] at h
      exact absurd h (by simp)

/-- C4: when the message is present in the tree, `refresh_message` replaces
exactly that one message (the first, in `iterate_indices` order, with the
given id) by the newly fetched data, refreshes the matches, and leaves the
tree structure — the roots list and all parent/children links (the shape) —
the mode, the raw data nesting, and the contents of every other message
unchanged; it emits `dataChanged`, not a model reset, so existing indices
stay valid. -/
theorem refresh_message_correct (st : TMState) (msgId : String) (newMsg : Msg)
    (newMatches : List String) (st2 : TMState) (sig : ModelSignal)
    (h : refresh_message st msgId newMsg newMatches = some (st2, sig)) :
    shape_of st2.roots = shape_of st.roots ∧
    ((flatten_items st.roots).findIdx (fun m => decide (m.id = msgId)) <
        (flatten_items st.roots).length ∧
      flatten_items st2.roots =
        (flatten_items st.roots).set
          ((flatten_items st.roots).findIdx (fun m => decide (m.id = msgId)))
          newMsg ∧
      (flatten_items st2.roots)[(flatten_items st.roots).findIdx
          (fun m => decide (m.id = msgId))]? = some newMsg ∧
      (∀ j, j ≠ (flatten_items st.roots).findIdx
          (fun m => decide (m.id = msgId)) →
        (flatten_items st2.roots)[j]? = (flatten_items st.roots)[j]?)) ∧
    st2.matchIds = newMatches ∧
    st2.mode = st.mode ∧
    st2.raw_data = st.raw_data ∧
    sig = ModelSignal.dataChanged := by
  rw [refresh_message] at h
  rcases hrep : replace_first msgId newMsg st.roots with _ | roots2
  · rw [hrep] at h; exact absurd h (by simp)
  · rw [hrep] at h
    obtain ⟨hst2, hsig⟩ := Prod.mk.injEq .. ▸ Option.some.inj h
    obtain ⟨hsh, hlt, hset⟩ := replace_first_some msgId newMsg st.roots roots2 hrep
    subst hst2
    refine ⟨hsh, ⟨hlt, hset, ?_, ?_⟩, rfl, rfl, rfl, hsig.symm⟩
    · rw [hset]
      exact List.getElem?_set_self hlt
    · intro j hj
      rw [hset]
      exact List.getElem?_set_ne (Ne.symm hj)

/-- Witness for C4: refreshing message `b` in a two-node thread keeps the
shape and the other message, swaps in the new contents, installs the new
matches and emits `dataChanged`. -/
theorem refresh_message_correct_witness :
    shape_of [ThreadItem.mk ⟨"a", 0, []⟩ [.mk ⟨"b", 9, ["unread"]⟩ []]] =
      shape_of [ThreadItem.mk ⟨"a", 0, []⟩ [.mk ⟨"b", 1, []⟩ []]] ∧
    ([Msg.mk "a" 0 [], Msg.mk "b" 1 []].findIdx
        (fun m => decide (m.id = "b")) <
      [Msg.mk "a" 0 [], Msg.mk "b" 1 []].length) := by
  have h := refresh_message_correct
    ⟨ListMode.thread, [], [.mk ⟨"a", 0, []⟩ [.mk ⟨"b", 1, []⟩ []]], []⟩
    "b" ⟨"b", 9, ["unread"]⟩ ["b"]
    ⟨ListMode.thread, [], [.mk ⟨"a", 0, []⟩ [.mk ⟨"b", 9, ["unread"]⟩ []]], ["b"]⟩
    ModelSignal.dataChanged
    (by simp [refresh_message, replace_first])
  refine ⟨h.1, ?_⟩
  have := h.2.1.1
  simpa [flatten_items] using this

/-- A thread summary returned by `notmuch search --format=json`
(`dodo/search.py`); only the fields relevant here. -/
structure SThread where
  thread : String
  tags : List String
deriving DecidableEq, Repr

/-- The state of a `SearchModel` (`dodo/search.py`): query, parsed thread
list `d`, raw json, cached thread count and error message. -/
structure SMState where
  q : String
  d : List SThread
  json_str : String
  num_threads : Nat
  error_msg : Option String

/-- Outcome of `subprocess.run(['notmuch','search','--format=json',q],
capture_output=True, text=True, check=True)` combined with `json.loads`:
either the parsed result with the raw stdout, or a `CalledProcessError`
carrying the captured stderr — a `str`, not `bytes`, because of
`text=True`. -/
inductive SearchRun where
  | ok (parsed : List SThread) (stdout : String)
  | failed (stderr : String)

/-- Attribute lookup `s.decode` on a Python 3 `str`: `decode` is a `bytes`
method, a `str` does not have it, so the lookup raises `AttributeError`
regardless of the contents of `s`. -/
def py_str_decode (_s : String) : Except String String :=
  Except.error "AttributeError: str object has no attribute decode"

/-- `dodo/search.py: SearchModel.refresh`: store stdout and the parsed
threads on success; on `CalledProcessError` the `except` branch runs
`self.error_msg = e.stderr.decode()`, whose failure propagates out of
`refresh` (`Except.error`).  (The trailing `self.threads`/
`self.num_threads` lines are reached only when no exception escapes.) -/
def search_refresh (st : SMState) (run : SearchRun) : Except String SMState :=
  match run with
  | .ok parsed out =>
      .ok { st with json_str := out, d := parsed, error_msg := none,
                    num_threads := parsed.length }
  | .failed stderr =>
      match py_str_decode stderr with
      | .ok msg =>
          .ok { st with error_msg := some msg, num_threads := st.d.length }
      | .error e => .error e

/-- C6 (code bug): when `notmuch search` exits nonzero, `refresh` does not
store the stderr text in `error_msg` — `e.stderr` is a `str` because the
call uses `text=True`, so `e.stderr.decode()` raises `AttributeError` and
`refresh` never completes normally (in particular `on_data_refresh` never
gets to display the message; `endResetModel` is skipped too). -/
theorem search_refresh_error_raises (st : SMState) (stderr : String) :
    search_refresh st (SearchRun.failed stderr) =
      Except.error "AttributeError: str object has no attribute decode" ∧
    ∀ st2 : SMState, search_refresh st (SearchRun.failed stderr) ≠ Except.ok st2 := by
  constructor
  · rfl
  · intro st2 h
    rw [search_refresh] at h
    simp [py_str_decode] at h

/-- A message dictionary with no guaranteed fields: each field the code
might index is optional, `none` standing for an absent key. -/
structure PMsg where
  id : Option String
  timestamp : Option Int
  tags : Option (List String)
deriving DecidableEq, Repr

/-- Nested thread data over field-optional messages. -/
inductive PTree where
  | node (msg : PMsg) (children : List PTree)

/-- Depth-first flattening of field-optional thread data
(`dodo/thread.py: flatten`). -/
def flatten_pforest : List PTree → List PMsg
  | [] => []
  | .node m cs :: ts => m :: (flatten_pforest cs ++ flatten_pforest ts)

/-- The sort keys computed by `thread.sort(key=lambda m: m['timestamp'])`:
the subscript `m['timestamp']` raises `KeyError` on the first message
without that field. -/
def key_timestamps : List PMsg → Except String (List (Int × PMsg))
  | [] => .ok []
  | m :: ms =>
    match m.timestamp with
    | none => .error "KeyError: timestamp"
    | some t =>
      match key_timestamps ms with
      | .ok ks => .ok ((t, m) :: ks)
      | .error e => .error e

/-- `dodo/thread.py: flat_thread` over field-optional messages: flatten,
then sort by the `timestamp` key, propagating the `KeyError` raised when a
message lacks the field. -/
def flat_thread_checked (d : List PTree) : Except String (List PMsg) :=
  match key_timestamps (flatten_pforest d) with
  | .ok ks =>
      .ok ((ks.mergeSort (fun a b => decide (a.1 ≤ b.1))).map (fun p => p.2))
  | .error e => .error e

/-- Counterexample to C8 as stated: a single-message thread whose message
carries `id` and `tags` but no `timestamp` — JSON the claim says imposes no
requirements — makes `flat_thread` raise `KeyError` instead of succeeding. -/
theorem flat_thread_checked_counterexample :
    flat_thread_checked
        [PTree.node ⟨some "a", none, some ["inbox"]⟩ []] =
      Except.error "KeyError: timestamp" := by
  simp [flat_thread_checked, flatten_pforest, key_timestamps]

theorem key_timestamps_ok_iff (l : List PMsg) :
    (∃ ks, key_timestamps l = Except.ok ks) ↔
      ∀ m ∈ l, (m.timestamp).isSome := by
  induction l with
  | nil => simp [key_timestamps]
  | cons m ms ih =>
      constructor
      · rintro ⟨ks, hks⟩
        intro x hx
        rw [key_timestamps] at hks
        rcases List.mem_cons.mp hx with rfl | hx
        · cases hm : x.timestamp with
          | none => rw [hm] at hks; simp at hks
          | some t => simp [hm]
        · refine (ih.mp ?_) x hx
          cases hm : m.timestamp with
          | none => rw [hm] at hks; simp at hks
          | some t =>
              rw [hm] at hks
              cases hms : key_timestamps ms with
              | ok ks2 => exact ⟨ks2, rfl⟩
              | error e => rw [hms] at hks; simp at hks
      · intro h
        obtain ⟨t, ht⟩ := Option.isSome_iff_exists.mp (h m (by simp))
        obtain ⟨ks, hks⟩ := ih.mpr (fun x hx => h x (by simp [hx]))
        exact ⟨(t, m) :: ks, by simp [key_timestamps, ht, hks]⟩

/-- C8 (amended): the rendering operations do impose field requirements on
the JSON: `flat_thread` succeeds precisely when every message of the
thread carries a `timestamp` field, and raises `KeyError` otherwise (the
code relies on notmuch always emitting that field; similar unconditional
subscripts exist in `SearchModel.data` and `ThreadModel.refresh`). -/
theorem flat_thread_checked_ok_iff (d : List PTree) :
    (∃ l, flat_thread_checked d = Except.ok l) ↔
      ∀ m ∈ flatten_pforest d, (m.timestamp).isSome := by
  constructor
  · rintro ⟨l, hl⟩
    rw [flat_thread_checked] at hl
    cases hks : key_timestamps (flatten_pforest d) with
    | ok ks => exact (key_timestamps_ok_iff _).mp ⟨ks, hks⟩
    | error e => rw [hks] at hl; simp at hl
  · intro h
    obtain ⟨ks, hks⟩ := (key_timestamps_ok_iff _).mpr h
    exact ⟨(ks.mergeSort (fun a b => decide (a.1 ≤ b.1))).map (fun p => p.2),
      by simp [flat_thread_checked, hks]⟩

/-- Python `c in s` for a single character and a `str`. -/
def py_char_in (c : Char) (s : String) : Bool :=
  s.toList.contains c

/-- The shared guard of `ThreadModel.tag_message` (`dodo/thread.py`) and
`SearchPanel.tag_thread` (`dodo/search.py`):
`if not ('+' in tag_expr or '-' in tag_expr): tag_expr = '+' + tag_expr`. -/
def normalize_tag_expr (tag_expr : String) : String :=
  if !(py_char_in '+' tag_expr || py_char_in '-' tag_expr) then
    "+" ++ tag_expr
  else
    tag_expr

/-- Python `str.split()` with no separator, on the character list: split on
runs of whitespace, dropping empty pieces (`cur` is the current word,
reversed). -/
def py_split_ws_aux : List Char → List Char → List (List Char)
  | [], cur => if cur.isEmpty then [] else [cur.reverse]
  | c :: cs, cur =>
    if c = ' ' || c = '\t' || c = '\n' || c = '\r' then
      if cur.isEmpty then py_split_ws_aux cs []
      else cur.reverse :: py_split_ws_aux cs []
    else
      py_split_ws_aux cs (c :: cur)

/-- Python `str.split()` with no separator. -/
def py_split_ws (s : String) : List String :=
  (py_split_ws_aux s.toList []).map List.asString

/-- `dodo/thread.py: ThreadModel.tag_message`: the command line passed to
`subprocess.run`, `['notmuch', 'tag'] + tag_expr.split() + ['--', 'id:' + msg_id]`,
after the `'+'`-prepending guard. -/
def tag_message_cmd (tag_expr msg_id : String) : List String :=
  ["notmuch", "tag"] ++ py_split_ws (normalize_tag_expr tag_expr) ++
    ["--", "id:" ++ msg_id]

/-- `dodo/search.py: SearchPanel.tag_thread` (mode `'tag'`): the command
line `['notmuch', 'tag'] + tag_expr.split() + ['--', 'thread:' + thread_id]`,
after the same guard. -/
def tag_thread_cmd (tag_expr thread_id : String) : List String :=
  ["notmuch", "tag"] ++ py_split_ws (normalize_tag_expr tag_expr) ++
    ["--", "thread:" ++ thread_id]

/-- C10: a tag expression containing neither `'+'` nor `'-'` gets a `'+'`
prepended, so a bare `TAG` issues exactly the command `+TAG` would issue,
for both the per-message and the per-thread tagging commands; any
expression that already contains `'+'` or `'-'` is passed through
unchanged. -/
theorem tag_expr_plus_convention (e msg_id thread_id : String)
    (h : py_char_in '+' e = false ∧ py_char_in '-' e = false) :
    tag_message_cmd e msg_id = tag_message_cmd ("+" ++ e) msg_id ∧
    tag_thread_cmd e thread_id = tag_thread_cmd ("+" ++ e) thread_id ∧
    (∀ e2 : String, (py_char_in '+' e2 || py_char_in '-' e2) = true →
      normalize_tag_expr e2 = e2) := by
  have hplus : py_char_in '+' ("+" ++ e) = true := by
    simp [py_char_in]
  have h1 : normalize_tag_expr e = "+" ++ e := by
    rw [normalize_tag_expr, if_pos (by simp [h.1, h.2])]
  have h2 : normalize_tag_expr ("+" ++ e) = "+" ++ e := by
    rw [normalize_tag_expr, if_neg (by simp [hplus])]
  refine ⟨?_, ?_, ?_⟩
  · rw [tag_message_cmd, tag_message_cmd, h1, h2]
  · rw [tag_thread_cmd, tag_thread_cmd, h1, h2]
  · intro e2 he2
    rw [normalize_tag_expr, if_neg (by simp [he2])]

/-- Witness for C10: the bare expression `inbox` issues the same `notmuch
tag` command as `+inbox`. -/
theorem tag_expr_plus_convention_witness :
    (py_char_in '+' "inbox" = false ∧ py_char_in '-' "inbox" = false) ∧
    tag_message_cmd "inbox" "m1" = tag_message_cmd ("+" ++ "inbox") "m1" := by
  have h : py_char_in '+' "inbox" = false ∧ py_char_in '-' "inbox" = false := by
    decide
  exact ⟨h, (tag_expr_plus_convention "inbox" "m1" "t1" h).1⟩

/-- `dodo/settings.py: wrap_column = 78`. -/
def wrap_column : Nat := 78

/-- The loop of `dodo/util.py: separate_headers`, transcribed over the
`splitlines` image of the message (a Python string is modelled by its list
of lines, none of which contains a newline): while `headers` is set, an
empty line clears it (and is dropped); other lines go to the header part;
once cleared, every line goes to the body part. -/
def separate_headers_go (headers : Bool) : List String → List String × List String
  | [] => ([], [])
  | line :: rest =>
    if headers && line == "" then
      separate_headers_go false rest
    else if headers then
      let hb := separate_headers_go headers rest
      (line :: hb.1, hb.2)
    else
      let hb := separate_headers_go headers rest
      (hb.1, line :: hb.2)

/-- `dodo/util.py: separate_headers`: split a message into its header part
and body part. -/
def separate_headers (lines : List String) : List String × List String :=
  separate_headers_go true lines

/-- A character list cut into pieces of `w` characters (the breaking of
words longer than the wrap width). -/
def chunks_of (w : Nat) : List Char → List (List Char)
  | [] => []
  | c :: cs =>
    if w = 0 then [c :: cs]
    else ((c :: cs).take w) :: chunks_of w (cs.drop (w - 1))
termination_by l => l.length
decreasing_by
  simp only [List.length_drop, List.length_cons]
  omega

/-- A single word, broken into `w`-character pieces when longer than `w`
(textwrap's `break_long_words=True`). -/
def break_long (w : Nat) (word : List Char) : List (List Char) :=
  if word.length ≤ w then [word] else chunks_of w word

/-- Greedy word wrapping: pack words into the current line while the line,
a space and the word fit into `w` columns, else emit the line and start a
new one. -/
def fill_greedy (w : Nat) (cur : List Char) : List (List Char) → List (List Char)
  | [] => [cur]
  | word :: rest =>
    if cur.isEmpty then fill_greedy w word rest
    else if cur.length + 1 + word.length ≤ w then
      fill_greedy w (cur ++ ' ' :: word) rest
    else
      cur :: fill_greedy w word rest

/-- Modelled from the spec: Python `textwrap.fill(line, width=w)` (standard
library, not part of src/) on a single newline-free line, with its default
parameters — split the line into whitespace-separated words, break words
longer than `w` into `w`-character pieces, and fill greedily; a line with
no words yields the empty string. -/
def fill_lines (w : Nat) (line : String) : List String :=
  match (py_split_ws_aux line.toList []).flatMap (break_long w) with
  | [] => [""]
  | ws => (fill_greedy w [] ws).map List.asString

/-- The body loop of `dodo/util.py: wrap_message`: quoted lines (first
character `>`) pass through; every other line is hard-wrapped at
`settings.wrap_column`. -/
def wrap_body : List String → List String
  | [] => []
  | line :: rest =>
    (if line.take 1 == ">" then [line] else fill_lines wrap_column line) ++
      wrap_body rest

/-- `dodo/util.py: wrap_message` over the line list: split off the headers,
reinstate the separating empty line, and wrap the body. -/
def wrap_message (lines : List String) : List String :=
  (separate_headers lines).1 ++ [""] ++ wrap_body (separate_headers lines).2

/-- The header part as the claim describes it: all lines before the first
empty line. -/
def header_lines (lines : List String) : List String :=
  lines.takeWhile (fun l => l != "")

/-- The body part as the claim describes it: all lines after the first
empty line. -/
def body_lines (lines : List String) : List String :=
  (lines.dropWhile (fun l => l != "")).drop 1

theorem separate_headers_go_false (l : List String) :
    separate_headers_go false l = ([], l) := by
  induction l with
  | nil => rfl
  | cons line rest ih => simp [separate_headers_go, ih]

theorem separate_headers_spec (lines : List String) :
    separate_headers lines = (header_lines lines, body_lines lines) := by
  rw [separate_headers]
  induction lines with
  | nil => simp [separate_headers_go, header_lines, body_lines]
  | cons line rest ih =>
      by_cases h : line = ""
      · subst h
        simp [separate_headers_go, separate_headers_go_false,
          header_lines, body_lines]
      · have hne : (line == "") = false := by simp [h]
        rw [separate_headers_go]
        simp [hne, ih, h, header_lines, body_lines, List.takeWhile_cons,
          List.dropWhile_cons]

theorem chunks_of_le (w : Nat) (hw : 1 ≤ w) :
    ∀ l, ∀ piece ∈ chunks_of w l, piece.length ≤ w := by
  intro l
  induction l using chunks_of.induct w with
  | case1 => intro piece hp; simp [chunks_of] at hp
  | case2 c cs hw0 =>
      intro piece hp
      omega
  | case3 c cs hw0 ih =>
      intro piece hp
      rw [chunks_of, if_neg hw0] at hp
      rcases List.mem_cons.mp hp with rfl | hp
      · simp [List.length_take]
      · exact ih piece hp

theorem break_long_le (w : Nat) (hw : 1 ≤ w) (word : List Char) :
    ∀ piece ∈ break_long w word, piece.length ≤ w := by
  intro piece hp
  rw [break_long] at hp
  by_cases hlen : word.length ≤ w
  · rw [if_pos hlen] at hp
    simp only [List.mem_singleton] at hp
    subst hp; exact hlen
  · rw [if_neg hlen] at hp
    exact chunks_of_le w hw word piece hp

theorem fill_greedy_le (w : Nat) :
    ∀ ws cur, cur.length ≤ w → (∀ word ∈ ws, word.length ≤ w) →
      ∀ line ∈ fill_greedy w cur ws, line.length ≤ w := by
  intro ws
  induction ws with
  | nil =>
      intro cur hc _ line hl
      rw [fill_greedy] at hl
      simp only [List.mem_singleton] at hl
      subst hl; exact hc
  | cons word rest ih =>
      intro cur hc hws line hl
      rw [fill_greedy] at hl
      by_cases hcur : cur.isEmpty
      · rw [if_pos hcur] at hl
        exact ih word (hws word (by simp))
          (fun x hx => hws x (by simp [hx])) line hl
      · rw [if_neg hcur] at hl
        by_cases hfit : cur.length + 1 + word.length ≤ w
        · rw [if_pos hfit] at hl
          refine ih _ ?_ (fun x hx => hws x (by simp [hx])) line hl
          simp only [List.length_append, List.length_cons]
          omega
        · rw [if_neg hfit] at hl
          rcases List.mem_cons.mp hl with rfl | hl
          · exact hc
          · exact ih word (hws word (by simp))
              (fun x hx => hws x (by simp [hx])) line hl

theorem fill_lines_le (line : String) :
    ∀ out ∈ fill_lines wrap_column line, out.length ≤ wrap_column := by
  intro out hout
  rw [fill_lines] at hout
  cases hws : (py_split_ws_aux line.toList []).flatMap (break_long wrap_column) with
  | nil =>
      rw [hws] at hout
      simp only [List.mem_singleton] at hout
      subst hout
      simp [wrap_column]
  | cons wd ws =>
      rw [hws] at hout
      obtain ⟨piece, hpiece, rfl⟩ := List.mem_map.mp hout
      have hwords : ∀ word ∈ wd :: ws, word.length ≤ wrap_column := by
        intro word hword
        rw [← hws] at hword
        obtain ⟨w0, _, hw0⟩ := List.mem_flatMap.mp hword
        exact break_long_le wrap_column (by simp [wrap_column]) w0 word hw0
      exact fill_greedy_le wrap_column (wd :: ws) []
        (by simp [wrap_column]) hwords piece hpiece

theorem wrap_body_flatMap (l : List String) :
    wrap_body l =
      l.flatMap (fun line =>
        if line.take 1 == ">" then [line] else fill_lines wrap_column line) := by
  induction l with
  | nil => simp [wrap_body]
  | cons line rest ih => simp [wrap_body, ih]

/-- C9: `wrap_message` leaves the header part (all lines before the first
empty line) unchanged, leaves every body line beginning with `>`
unchanged, and replaces each remaining body line by its hard wrap at
`settings.wrap_column`; every wrapped output line fits in `wrap_column`
characters. -/
theorem wrap_message_correct (lines : List String) :
    wrap_message lines =
      header_lines lines ++ [""] ++
        (body_lines lines).flatMap
          (fun l => if l.take 1 == ">" then [l] else fill_lines wrap_column l) ∧
    (∀ l : String, ∀ out ∈ fill_lines wrap_column l, out.length ≤ wrap_column) := by
  constructor
  · rw [wrap_message, separate_headers_spec, wrap_body_flatMap]
  · intro l
    exact fill_lines_le l
